import Mathlib

/-!
# Verification of the shares-outstanding outlier-correction pipeline

Shallow embedding of
`src/Investment_Strategy/src/outlier_adjusted_data/shares_outstanding_outlier_adjusted.py`.

A pandas float series is modelled as `List (Option ℚ)`: `none` is a missing
cell (NaN), `some q` a present finite value.  Results of pandas float
arithmetic that can be NaN or infinite (the percentage changes and the
normalized deviations) are modelled by the three-valued type `PVal`:
IEEE division of a nonzero numerator by zero gives `inf`, `0/0` and any
operation on NaN gives `nan`, and comparisons against NaN are `false`
while `inf > t` is `true` for every finite threshold `t`.

Positions are list positions (the pandas integer index of the code is
assumed unique and strictly increasing, so labels and positions agree;
the label-sensitive behaviour needed for claim C3 is modelled separately
at the end of the definition section).
-/

/- Batteries marks the arithmetic of `Rat` irreducible, which blocks the
kernel evaluation used by `decide` on the concrete series below; restore
the default reducibility for this file. -/
set_option allowUnsafeReducibility true

attribute [local semireducible] Rat.add Rat.mul Rat.sub Rat.inv Rat.ofScientific

namespace SharesOutlier

/-- A pandas float cell: `none` = NaN / missing. -/
abbrev Val := Option ℚ

/-- Configuration constant `MAX_LOOKAHEAD_DAYS = 600`. -/
def MAX_LOOKAHEAD_DAYS : ℕ := 600

/-- Configuration constant `ROLLING_WINDOW_DAYS = 63`. -/
def ROLLING_WINDOW_DAYS : ℕ := 63

/-- Configuration constant `ROLLING_DEVIATION_THRESHOLD = 0.40`. -/
def ROLLING_DEVIATION_THRESHOLD : ℚ := 0.40

/-- Result of a pandas float computation that may be NaN or +infinity. -/
inductive PVal where
  | nan : PVal
  | inf : PVal
  | val (q : ℚ) : PVal
deriving DecidableEq, Repr

/-- One cell of `(series - series.shift(1)).abs() / series.shift(1).abs()`:
IEEE semantics of `abs(cur - prev) / abs(prev)` on float cells. -/
def pctCell (prev cur : Val) : PVal :=
  match prev, cur with
  | none, _ => .nan
  | _, none => .nan
  | some a, some b =>
      if a = 0 then (if b = 0 then .nan else .inf)
      else .val (|b - a| / |a|)

/-- `calculate_pct_change`: element `i` is the absolute percentage change
from element `i-1`; element `0` is NaN (`series.shift(1)` starts with NaN). -/
def calculate_pct_change (series : List Val) : List PVal :=
  List.zipWith pctCell (none :: series) series

/-- The boolean `pct_change > threshold` of pandas floats:
NaN compares `false`, `+inf` compares `true`. -/
def exceedsB (p : PVal) (threshold : ℚ) : Bool :=
  match p with
  | .nan => false
  | .inf => true
  | .val q => decide (threshold < q)

/-- `find_spike_start_indices`: positions whose percentage change exceeds
the threshold, in increasing order (`pct_change[exceeds_threshold].index`). -/
def find_spike_start_indices (pct_change : List PVal) (threshold : ℚ) : List ℕ :=
  (List.range pct_change.length).filter (fun i => exceedsB (pct_change.getD i .nan) threshold)

/-- Boolean `deviation <= threshold` for one future cell in
`find_reversion_index`; a missing cell gives NaN which compares `false`. -/
def revertsB (cell : Val) (pre_spike_value threshold : ℚ) : Bool :=
  match cell with
  | none => false
  | some b => decide (|b - pre_spike_value| / |pre_spike_value| ≤ threshold)

/-- `find_reversion_index`: `None` when the pre-spike value is missing or
zero; otherwise the first position in
`spike_start_position, ..., min(spike_start_position + max_lookahead, len) - 1`
whose deviation from the pre-spike value is within the threshold
(`reverted.idxmax()` guarded by `reverted.any()`). -/
def find_reversion_index (series : List Val) (spike_start_position : ℕ)
    (pre_spike_value : Val) (threshold : ℚ) (max_lookahead : ℕ) : Option ℕ :=
  match pre_spike_value with
  | none => none
  | some v =>
      if v = 0 then none
      else
        let search_end := min (spike_start_position + max_lookahead) series.length
        (List.range' spike_start_position (search_end - spike_start_position)).find?
          (fun r => revertsB (series.getD r none) v threshold)

/-- `mark_spike_region`: set `outlier_mask.iloc[start_pos:end_pos] = True`,
leaving every other entry unchanged. -/
def mark_spike_region (outlier_mask : List Bool) (spike_start_pos end_pos : ℕ) : List Bool :=
  (List.range outlier_mask.length).map
    (fun i => if spike_start_pos ≤ i ∧ i < end_pos then true else outlier_mask.getD i false)

/-- One iteration of the candidate loop of `detect_reverting_spikes`:
state is the outlier mask together with `processed_until` (initially `-1`). -/
def detectStep (series : List Val) (threshold : ℚ) (max_lookahead : ℕ)
    (st : List Bool × ℤ) (spike_pos : ℕ) : List Bool × ℤ :=
  if (spike_pos : ℤ) ≤ st.2 then st
  else
    let pre_spike_value : Val := if 0 < spike_pos then series.getD (spike_pos - 1) none else none
    match find_reversion_index series spike_pos pre_spike_value threshold max_lookahead with
    | none => st
    | some r => (mark_spike_region st.1 spike_pos r, (r : ℤ))

/-- `detect_reverting_spikes`. -/
def detect_reverting_spikes (series : List Val) (threshold : ℚ)
    (max_lookahead : ℕ := MAX_LOOKAHEAD_DAYS) : List Bool :=
  let pct_change := calculate_pct_change series
  let spike_starts := find_spike_start_indices pct_change threshold
  (spike_starts.foldl (detectStep series threshold max_lookahead)
    (List.replicate series.length false, -1)).1

/-- Insertion into a sorted list, for the rolling median. -/
def insertSorted (q : ℚ) : List ℚ → List ℚ
  | [] => [q]
  | x :: xs => if q ≤ x then q :: x :: xs else x :: insertSorted q xs

/-- Insertion sort, for the rolling median. -/
def sortQ : List ℚ → List ℚ
  | [] => []
  | x :: xs => insertSorted x (sortQ xs)

/-- Median of a list of present values, as pandas computes it: middle
element of the sorted list, or the mean of the two middle elements. -/
def medianQ (l : List ℚ) : ℚ :=
  let sorted := sortQ l
  if l.length % 2 = 1 then sorted.getD (l.length / 2) 0
  else (sorted.getD (l.length / 2 - 1) 0 + sorted.getD (l.length / 2) 0) / 2

/-- The present cells inside pandas' centered rolling window of odd
width `w = ROLLING_WINDOW_DAYS` at position `i`: the window covers rows
`i - (w-1)/2 .. i + w/2`, truncated to the series. -/
def rollingWindow (series : List Val) (i : ℕ) : List ℚ :=
  let lo := i - (ROLLING_WINDOW_DAYS - 1) / 2
  let hi := min (i + ROLLING_WINDOW_DAYS / 2) (series.length - 1)
  (List.range' lo (hi + 1 - lo)).filterMap (fun j => series.getD j none)

/-- The centered rolling median with `min_periods=5` at position `i`:
the median of the present cells of the window, NaN unless at least `5`
cells are present. -/
def rollingMedian (series : List Val) (i : ℕ) : Val :=
  if (rollingWindow series i).length < 5 then none else some (medianQ (rollingWindow series i))

/-- The flag computed by `detect_rolling_median_outliers` at one position:
`(value - median).abs() / median.abs() > 0.40` with `fillna(False)`;
a zero median with a nonzero present value gives `+inf > 0.40 = true`,
a zero median with a zero value gives NaN, filled to `false`. -/
def rollingFlag (cell med : Val) : Bool :=
  match cell, med with
  | some v, some m =>
      if m = 0 then decide (v ≠ 0)
      else decide (ROLLING_DEVIATION_THRESHOLD < |v - m| / |m|)
  | _, _ => false

/-- `detect_rolling_median_outliers`. -/
def detect_rolling_median_outliers (series : List Val) : List Bool :=
  (List.range series.length).map
    (fun i => rollingFlag (series.getD i none) (rollingMedian series i))

/-- The forward-fill scan of `Series.ffill()`: each missing cell takes the
most recent preceding present cell, if any. -/
def ffillAux (last : Val) : List Val → List Val
  | [] => []
  | none :: rest => last :: ffillAux last rest
  | some v :: rest => some v :: ffillAux (some v) rest

/-- The intermediate series of `apply_forward_fill_correction` after
`corrected[outlier_mask] = np.nan`: masked cells become NaN. -/
def nulledSeries (series : List Val) (outlier_mask : List Bool) : List Val :=
  (List.range series.length).map
    (fun i => if outlier_mask.getD i false then none else series.getD i none)

/-- `apply_forward_fill_correction`: set the masked cells to NaN, then
`ffill()` (which fills every missing cell, masked or not). -/
def apply_forward_fill_correction (series : List Val) (outlier_mask : List Bool) : List Val :=
  ffillAux none (nulledSeries series outlier_mask)

/-- One reversion pass of the pipeline: detect then correct.
(The pipeline calls `detect_reverting_spikes` with its default lookahead.) -/
def reversionPass (threshold : ℚ) (series : List Val) : List Val :=
  apply_forward_fill_correction series (detect_reverting_spikes series threshold)

/-- The forward scan of `ffill` as a fold: the last present value of the
list, defaulting to the accumulator. -/
def fillVal (acc : Val) (l : List Val) : Val :=
  l.foldl (fun a c => match c with | none => a | some v => some v) acc

/-- `correct_shares_outstanding_outliers`: the fixed four-pass pipeline. -/
def correct_shares_outstanding_outliers (series : List Val) : List Val :=
  let corrected := series
  let corrected := reversionPass 1.00 corrected
  let corrected := reversionPass 0.50 corrected
  let corrected := reversionPass 0.35 corrected
  apply_forward_fill_correction corrected (detect_rolling_median_outliers corrected)

/-! ## Basic list access lemmas -/

lemma getD_range_map {α : Type} (f : ℕ → α) (n i : ℕ) (d : α) :
    ((List.range n).map f).getD i d = if i < n then f i else d := by
  rcases lt_or_le i n with h | h
  · rw [List.getD_eq_getElem?_getD, List.getElem?_map, List.getElem?_range h]
    simp [h]
  · have hnone : (List.range n)[i]? = none := by
      rw [List.getElem?_eq_none_iff]
      simpa using h
    rw [List.getD_eq_getElem?_getD, List.getElem?_map, hnone]
    simp [Nat.not_lt.2 h]

lemma lt_length_of_getD_some {s : List Val} {i : ℕ} {v : ℚ}
    (h : s.getD i none = some v) : i < s.length := by
  by_contra hn
  rw [List.getD_eq_default _ _ (Nat.not_lt.1 hn)] at h
  cases h

lemma getD_getD_of_lt {α : Type} [Inhabited α] (l : List α) (d : α) {i : ℕ}
    (h : i < l.length) : l.getD i d = l[i] := by
  rw [List.getD_eq_getElem?_getD, List.getElem?_eq_getElem h]
  rfl

/-! ## Forward-fill lemmas -/

lemma ffillAux_length (acc : Val) (l : List Val) : (ffillAux acc l).length = l.length := by
  induction l generalizing acc with
  | nil => rfl
  | cons x rest ih =>
      cases x with
      | none => simpa [ffillAux] using ih acc
      | some v => simpa [ffillAux] using ih (some v)

lemma fillVal_append (acc : Val) (l1 l2 : List Val) :
    fillVal acc (l1 ++ l2) = fillVal (fillVal acc l1) l2 := by
  simp [fillVal, List.foldl_append]

lemma fillVal_all_none (acc : Val) (l : List Val) (h : ∀ x ∈ l, x = none) :
    fillVal acc l = acc := by
  induction l with
  | nil => rfl
  | cons x rest ih =>
      have hx := h x (List.mem_cons_self x rest)
      subst hx
      simpa [fillVal] using ih (fun y hy => h y (List.mem_cons_of_mem _ hy))

lemma fillVal_mem_or_acc (l : List Val) :
    ∀ (acc : Val) (v : ℚ), fillVal acc l = some v → some v ∈ l ∨ acc = some v := by
  induction l with
  | nil => exact fun acc v h => Or.inr h
  | cons x rest ih =>
      intro acc v h
      cases x with
      | none =>
          rcases ih acc v h with h2 | h2
          · exact Or.inl (List.mem_cons_of_mem _ h2)
          · exact Or.inr h2
      | some w =>
          rcases ih (some w) v h with h2 | h2
          · exact Or.inl (List.mem_cons_of_mem _ h2)
          · exact Or.inl (h2 ▸ List.mem_cons_self _ _)

lemma ffillAux_getD (l : List Val) :
    ∀ (acc : Val) (i : ℕ), i < l.length →
      (ffillAux acc l).getD i none = fillVal acc (l.take (i + 1)) := by
  induction l with
  | nil => intro acc i hi; cases hi
  | cons x rest ih =>
      intro acc i hi
      cases x with
      | none =>
          cases i with
          | zero => rfl
          | succ j =>
              have := ih acc j (by simpa using hi)
              simpa [ffillAux, fillVal] using this
      | some v =>
          cases i with
          | zero => rfl
          | succ j =>
              have := ih (some v) j (by simpa using hi)
              simpa [ffillAux, fillVal] using this

lemma nulledSeries_getD (s : List Val) (mask : List Bool) (i : ℕ) :
    (nulledSeries s mask).getD i none =
      if i < s.length then (if mask.getD i false then none else s.getD i none) else none := by
  simpa [nulledSeries] using getD_range_map
    (fun i => if mask.getD i false then none else s.getD i none) s.length i none

lemma nulledSeries_length (s : List Val) (mask : List Bool) :
    (nulledSeries s mask).length = s.length := by
  simp [nulledSeries]

lemma apply_forward_fill_correction_length (s : List Val) (mask : List Bool) :
    (apply_forward_fill_correction s mask).length = s.length := by
  simp [apply_forward_fill_correction, ffillAux_length, nulledSeries_length]

lemma apply_forward_fill_correction_getD (s : List Val) (mask : List Bool) {i : ℕ}
    (hi : i < s.length) :
    (apply_forward_fill_correction s mask).getD i none =
      fillVal none ((nulledSeries s mask).take (i + 1)) := by
  rw [apply_forward_fill_correction]
  exact ffillAux_getD _ none i (by rwa [nulledSeries_length])

lemma take_succ_nulled (s : List Val) (mask : List Bool) {i : ℕ} (hi : i < s.length) :
    (nulledSeries s mask).take (i + 1) =
      (nulledSeries s mask).take i ++
        [if mask.getD i false then none else s.getD i none] := by
  rw [List.take_succ]
  congr 1
  have hlen : i < (nulledSeries s mask).length := by rwa [nulledSeries_length]
  rw [List.getElem?_eq_getElem hlen]
  have := nulledSeries_getD s mask i
  rw [getD_getD_of_lt _ none hlen, if_pos hi] at this
  rw [this]
  rfl

/-! ## Claim C2: effect of the corrector on unmasked positions -/

/-- C2 counterexample: the mask is `false` at position 1 and the input is
missing there, yet the corrected output at position 1 is `some 100`:
`ffill()` also fills missing input values at unmasked positions, so a
missing input at an unmasked position does not stay missing. -/
theorem claim_C2_counterexample :
    ([false, false] : List Bool).getD 1 false = false ∧
    ([some 100, none] : List Val).getD 1 none = none ∧
    (apply_forward_fill_correction [some 100, none] [false, false]).getD 1 none = some 100 := by
  decide

/-- C2 (amended): the forward-fill corrector leaves every unmasked
position that holds a present value unchanged; an unmasked missing input
value can be overwritten by the forward fill. -/
theorem claim_C2_amended (s : List Val) (mask : List Bool) (i : ℕ) (v : ℚ)
    (hm : mask.getD i false = false) (hv : s.getD i none = some v) :
    (apply_forward_fill_correction s mask).getD i none = some v := by
  have hi : i < s.length := lt_length_of_getD_some hv
  rw [apply_forward_fill_correction_getD s mask hi, take_succ_nulled s mask hi,
    fillVal_append, hm, if_neg (by simp), hv]
  rfl

/-- C2 witness: the amended theorem applied at a concrete series. -/
theorem claim_C2_witness :
    (apply_forward_fill_correction [some 7, none] [false, true]).getD 0 none = some 7 :=
  claim_C2_amended [some 7, none] [false, true] 0 7 (by decide) (by decide)

/-! ## Claim C7: forward fill on a flagged run -/

/-- C7 counterexample: the flagged run is `[2, 3)`, position 1 before the
run is unflagged, but its value is missing; the corrected value inside
the run is `some 100`, not `value[1]` (which is missing): the claim that
every corrected value in the run equals `value[p-1]` fails when the value
before the run is missing. -/
theorem claim_C7_counterexample :
    ([false, false, true] : List Bool).getD 1 false = false ∧
    ([some 100, none, some 250] : List Val).getD 1 none = none ∧
    (apply_forward_fill_correction [some 100, none, some 250] [false, false, true]).getD 2 none
      = some 100 := by
  decide

/-- C7 (amended): for a flagged run `[p, r)` with `p > 0`, position `p-1`
unflagged and the value at `p-1` present, every corrected value inside
the run equals the value at `p-1`. -/
theorem claim_C7_amended (s : List Val) (mask : List Bool) (p r i : ℕ) (v : ℚ)
    (hp : 0 < p) (hpi : p ≤ i) (hir : i < r) (hrn : r ≤ s.length)
    (hrun : ∀ j, j < r → p ≤ j → mask.getD j false = true)
    (hprev_mask : mask.getD (p - 1) false = false)
    (hprev_val : s.getD (p - 1) none = some v) :
    (apply_forward_fill_correction s mask).getD i none = some v := by
  have hin : i < s.length := lt_of_lt_of_le hir hrn
  -- the fill value over the prefix ending just before the run is `some v`
  have hbase : fillVal none ((nulledSeries s mask).take p) = some v := by
    have hp1 : p - 1 < s.length := by omega
    have : p - 1 + 1 = p := by omega
    rw [← this, take_succ_nulled s mask hp1, fillVal_append, hprev_mask]
    rw [if_neg (by simp), hprev_val]
    rfl
  -- pushing through the all-masked segment keeps the fill value
  have hstep : ∀ k, p + k < r →
      fillVal none ((nulledSeries s mask).take (p + k + 1)) = some v := by
    intro k
    induction k with
    | zero =>
        intro hk
        have hpn : p < s.length := by omega
        rw [take_succ_nulled s mask hpn, fillVal_append,
          hrun p (by omega) (le_refl p), if_pos rfl, hbase]
        rfl
    | succ k ih =>
        intro hk
        have hkn : p + (k + 1) < s.length := by omega
        have : p + (k + 1) = p + k + 1 := by omega
        rw [this] at hkn ⊢
        rw [take_succ_nulled s mask hkn, fillVal_append,
          hrun (p + k + 1) (by omega) (by omega), if_pos rfl, ih (by omega)]
        rfl
  have := hstep (i - p) (by omega)
  rw [apply_forward_fill_correction_getD s mask hin]
  have hip : p + (i - p) + 1 = i + 1 := by omega
  rwa [hip] at this

/-- C7 witness: the amended theorem applied at a concrete series. -/
theorem claim_C7_witness :
    (apply_forward_fill_correction [some 100, some 250, some 260, some 100]
      [false, true, true, false]).getD 2 none = some 100 :=
  claim_C7_amended [some 100, some 250, some 260, some 100] [false, true, true, false]
    1 3 2 100 (by decide) (by decide) (by decide) (by decide)
    (by decide) (by decide) (by decide)

/-! ## Claim C10: provenance of output values -/

lemma ffill_provenance (s : List Val) (mask : List Bool) (i : ℕ) (v : ℚ)
    (h : (apply_forward_fill_correction s mask).getD i none = some v) :
    ∃ j, j ≤ i ∧ s.getD j none = some v := by
  have hi : i < s.length := by
    by_contra hn
    rw [List.getD_eq_default] at h
    · cases h
    · rw [apply_forward_fill_correction_length]; omega
  rw [apply_forward_fill_correction_getD s mask hi] at h
  rcases fillVal_mem_or_acc _ _ _ h with hmem | hacc
  · rw [List.mem_iff_getElem] at hmem
    obtain ⟨j, hj, hjv⟩ := hmem
    have h2 : j < ((nulledSeries s mask).take (i + 1)).length := hj
    rw [List.length_take] at h2
    have hjlen : j < (nulledSeries s mask).length := by omega
    have hji : j ≤ i := by omega
    rw [List.getElem_take] at hjv
    refine ⟨j, hji, ?_⟩
    have hjn : j < s.length := by rwa [nulledSeries_length] at hjlen
    have := nulledSeries_getD s mask j
    rw [getD_getD_of_lt _ none hjlen, hjv, if_pos hjn] at this
    rcases hmask : mask.getD j false with _ | _
    · rw [hmask] at this
      rw [if_neg (by simp)] at this
      exact this.symm
    · rw [hmask] at this
      simp at this
  · cases hacc

/-- C10: every present value in the pipeline output is a copy of an input
value at the same or an earlier position; the pipeline never fabricates a
numeric value. -/
theorem claim_C10_provenance (s : List Val) (i : ℕ) (v : ℚ)
    (h : (correct_shares_outstanding_outliers s).getD i none = some v) :
    ∃ j, j ≤ i ∧ s.getD j none = some v := by
  have hpipe : correct_shares_outstanding_outliers s =
      apply_forward_fill_correction (reversionPass 0.35 (reversionPass 0.50 (reversionPass 1.00 s)))
        (detect_rolling_median_outliers
          (reversionPass 0.35 (reversionPass 0.50 (reversionPass 1.00 s)))) := rfl
  rw [hpipe] at h
  obtain ⟨j3, hj3, h3⟩ := ffill_provenance _ _ _ _ h
  obtain ⟨j2, hj2, h2⟩ := ffill_provenance _ _ _ _ h3
  obtain ⟨j1, hj1, h1⟩ := ffill_provenance _ _ _ _ h2
  obtain ⟨j0, hj0, h0⟩ := ffill_provenance _ _ _ _ h1
  exact ⟨j0, by omega, h0⟩

/-- C10 witness: on `[some 5, none]` the pipeline output at position 1 is
`some 5`, which is the input value at the earlier position 0. -/
theorem claim_C10_witness :
    ∃ j, j ≤ 1 ∧ ([some 5, none] : List Val).getD j none = some 5 :=
  claim_C10_provenance [some 5, none] 1 5 (by decide)

/-! ## Claim C8: idempotence of the pipeline -/

/-- C8 counterexample: on `[100, NaN, 300, 40]` the pipeline is not
idempotent.  In the first run, pass 1 computes percentage changes on the
raw series, where the NaN hides the jump to 300 (its change is NaN), and
passes 2 and 3 see the jump `100 -> 300` (2.0) but find no value within
their tighter reversion bands; the first run only forward-fills the NaN.
The second run's pass 1 then sees the change 2.0 > 1.0 with the value 40
inside its reversion band `[0, 200]` and corrects positions 2..2, so the
second output differs from the first. -/
theorem claim_C8_counterexample :
    correct_shares_outstanding_outliers
        (correct_shares_outstanding_outliers [some 100, none, some 300, some 40]) ≠
      correct_shares_outstanding_outliers [some 100, none, some 300, some 40] := by
  decide

/-- C8 (amended): the pipeline is idempotent on its fixed points — if one
application leaves the series unchanged, so does a second — but not in
general: a first run can expose (by forward-filling missing cells) a
reverting spike that only the second run corrects. -/
theorem claim_C8_amended (s : List Val)
    (h : correct_shares_outstanding_outliers s = s) :
    correct_shares_outstanding_outliers (correct_shares_outstanding_outliers s) =
      correct_shares_outstanding_outliers s := by
  rw [h]
  exact h

/-- C8 witness: the amended theorem applied at a concrete fixed point. -/
theorem claim_C8_witness :
    correct_shares_outstanding_outliers
        (correct_shares_outstanding_outliers [some 100, some 100]) =
      correct_shares_outstanding_outliers [some 100, some 100] :=
  claim_C8_amended [some 100, some 100] (by decide)

/-! ## Percentage-change access lemmas -/

lemma zipWith_pctCell_getD :
    ∀ (l1 l2 : List Val) (i : ℕ), i < l1.length → i < l2.length →
      (List.zipWith pctCell l1 l2).getD i .nan = pctCell (l1.getD i none) (l2.getD i none) := by
  intro l1
  induction l1 with
  | nil => intro l2 i hi; cases hi
  | cons x rest ih =>
      intro l2 i h1 h2
      cases l2 with
      | nil => cases h2
      | cons y rest2 =>
          cases i with
          | zero => rfl
          | succ j =>
              simpa using ih rest2 j (by simpa using h1) (by simpa using h2)

lemma calculate_pct_change_length (s : List Val) :
    (calculate_pct_change s).length = s.length := by
  simp [calculate_pct_change]

lemma calculate_pct_change_getD (s : List Val) {i : ℕ} (hi : i < s.length) :
    (calculate_pct_change s).getD i .nan =
      pctCell ((none :: s).getD i none) (s.getD i none) := by
  exact zipWith_pctCell_getD (none :: s) s i (by simp; omega) hi

lemma pctCell_none_right (p : Val) : pctCell p none = .nan := by
  cases p <;> rfl

lemma pctCell_none_left (c : Val) : pctCell none c = .nan := by
  cases c <;> rfl

lemma mem_find_spike_start_indices (pct : List PVal) (t : ℚ) (i : ℕ) :
    i ∈ find_spike_start_indices pct t ↔
      i < pct.length ∧ exceedsB (pct.getD i .nan) t = true := by
  simp [find_spike_start_indices, List.mem_filter, List.mem_range]

/-! ## Claim C4: candidates with a zero or missing previous value -/

/-- C4 counterexample: at position 1 of `[0, 5]` the previous value is
zero, yet position 1 is collected as a spike-start candidate for
threshold 1: the percentage change `|5 - 0| / 0` is `+inf` in pandas,
which exceeds every threshold, contradicting the claim that no candidate
is ever collected at a position whose previous value is zero. -/
theorem claim_C4_counterexample :
    ([some 0, some 5] : List Val).getD 0 none = some 0 ∧
    (1 : ℕ) ∈ find_spike_start_indices (calculate_pct_change [some 0, some 5]) 1 := by
  decide

/-- C4 (amended): a position whose previous value is missing, or whose
previous and current values are both zero, has a missing percentage
change and is never collected; a position with a zero previous value and
a nonzero present current value has an infinite percentage change and IS
collected at every threshold; but a candidate whose pre-spike value is
missing or zero is never marked, because `find_reversion_index` returns
`None` for it. -/
theorem claim_C4_amended :
    (∀ (s : List Val) (t : ℚ) (i : ℕ), (none :: s).getD i none = none →
        i ∉ find_spike_start_indices (calculate_pct_change s) t) ∧
    (∀ (s : List Val) (t : ℚ) (i : ℕ), (none :: s).getD i none = some 0 →
        s.getD i none = some 0 →
        i ∉ find_spike_start_indices (calculate_pct_change s) t) ∧
    (∀ (s : List Val) (t : ℚ) (i : ℕ) (b : ℚ), i < s.length →
        (none :: s).getD i none = some 0 → s.getD i none = some b → b ≠ 0 →
        i ∈ find_spike_start_indices (calculate_pct_change s) t) ∧
    (∀ (s : List Val) (p L : ℕ) (t : ℚ) (pre : Val), pre = none ∨ pre = some 0 →
        find_reversion_index s p pre t L = none) := by
  refine ⟨?_, ?_, ?_, ?_⟩
  · intro s t i hprev hmem
    rw [mem_find_spike_start_indices] at hmem
    obtain ⟨hlen, hex⟩ := hmem
    rw [calculate_pct_change_length] at hlen
    rw [calculate_pct_change_getD s hlen, hprev, pctCell_none_left] at hex
    cases hex
  · intro s t i hprev hcur hmem
    rw [mem_find_spike_start_indices] at hmem
    obtain ⟨hlen, hex⟩ := hmem
    rw [calculate_pct_change_length] at hlen
    rw [calculate_pct_change_getD s hlen, hprev, hcur] at hex
    simp [pctCell, exceedsB] at hex
  · intro s t i b hlen hprev hcur hb
    rw [mem_find_spike_start_indices, calculate_pct_change_length]
    refine ⟨hlen, ?_⟩
    rw [calculate_pct_change_getD s hlen, hprev, hcur]
    simp [pctCell, exceedsB, hb]
  · intro s p L t pre h
    rcases h with h | h <;> subst h
    · rfl
    · simp [find_reversion_index]

/-- C4 witness: the amended theorem applied at concrete inputs. -/
theorem claim_C4_witness :
    (1 : ℕ) ∉ find_spike_start_indices (calculate_pct_change [none, some 5]) 1 ∧
    (1 : ℕ) ∈ find_spike_start_indices (calculate_pct_change [some 0, some 3]) 1 ∧
    find_reversion_index [some 0, some 3] 1 (some 0) 1 600 = none :=
  ⟨claim_C4_amended.1 [none, some 5] 1 1 (by decide),
   claim_C4_amended.2.2.1 [some 0, some 3] 1 1 3 (by decide) (by decide) (by decide) (by decide),
   claim_C4_amended.2.2.2 [some 0, some 3] 1 600 1 (some 0) (Or.inr rfl)⟩

/-! ## Claim C5: the rolling-median detector's flag condition -/

/-- C5 counterexample: on `[0,0,0,0,1,0,0]` the rolling median at
position 4 is zero, yet position 4 is flagged: `|1 - 0| / 0` is `+inf`
in pandas, which exceeds 0.40, contradicting the claim that a position
with a zero median is left not-flagged. -/
theorem claim_C5_counterexample :
    (detect_rolling_median_outliers
        [some 0, some 0, some 0, some 0, some 1, some 0, some 0]).getD 4 false = true ∧
    rollingMedian [some 0, some 0, some 0, some 0, some 1, some 0, some 0] 4 = some 0 := by
  decide

/-- C5 (amended): position `i` is flagged iff its value is present, the
rolling median at `i` is defined, and either the median is nonzero with
relative deviation strictly above 0.40, or the median is zero and the
value is nonzero (an infinite deviation).  In particular an undefined
median, a missing value, or an undefined `0/0` ratio is never flagged. -/
theorem claim_C5_amended (s : List Val) (i : ℕ) :
    (detect_rolling_median_outliers s).getD i false = true ↔
      ∃ v m, s.getD i none = some v ∧ rollingMedian s i = some m ∧
        ((m ≠ 0 ∧ ROLLING_DEVIATION_THRESHOLD < |v - m| / |m|) ∨ (m = 0 ∧ v ≠ 0)) := by
  have hmap : (detect_rolling_median_outliers s).getD i false =
      if i < s.length then rollingFlag (s.getD i none) (rollingMedian s i) else false := by
    simpa [detect_rolling_median_outliers] using
      getD_range_map (fun i => rollingFlag (s.getD i none) (rollingMedian s i)) s.length i false
  rw [hmap]
  rcases lt_or_le i s.length with hi | hi
  · rw [if_pos hi]
    rcases hv : s.getD i none with _ | v
    · simp [rollingFlag]
    · rcases hm : rollingMedian s i with _ | m
      · simp [rollingFlag]
      · rcases eq_or_ne m 0 with hm0 | hm0
        · subst hm0
          simp [rollingFlag]
        · simp [rollingFlag, hm0]
  · rw [if_neg (by omega)]
    rw [List.getD_eq_default _ _ hi]
    simp

/-! ## First-match search lemmas for the reversion scan -/

lemma find?_range'_eq_some {f : ℕ → Bool} :
    ∀ {k p r : ℕ}, (List.range' p k).find? f = some r →
      p ≤ r ∧ r < p + k ∧ f r = true ∧ ∀ j, j < r → p ≤ j → f j = false := by
  intro k
  induction k with
  | zero => intro p r h; cases h
  | succ k ih =>
      intro p r h
      rw [List.range'_succ] at h
      by_cases hp : f p
      · rw [List.find?_cons_of_pos _ hp] at h
        cases h
        exact ⟨le_refl _, by omega, hp, fun j hj1 hj2 => by omega⟩
      · rw [List.find?_cons_of_neg _ hp] at h
        obtain ⟨h1, h2, h3, h4⟩ := ih h
        refine ⟨by omega, by omega, h3, fun j hj1 hj2 => ?_⟩
        rcases eq_or_lt_of_le hj2 with hj | hj
        · subst hj; exact Bool.eq_false_iff.2 hp
        · exact h4 j hj1 hj

lemma find?_range'_eq_some_of {f : ℕ → Bool} :
    ∀ {k p r : ℕ}, p ≤ r → r < p + k → f r = true →
      (∀ j, j < r → p ≤ j → f j = false) → (List.range' p k).find? f = some r := by
  intro k
  induction k with
  | zero => intro p r h1 h2; omega
  | succ k ih =>
      intro p r h1 h2 h3 h4
      rw [List.range'_succ]
      rcases eq_or_lt_of_le h1 with hpr | hpr
      · subst hpr
        exact List.find?_cons_of_pos _ h3
      · have hfp : f p = false := h4 p hpr (le_refl p)
        rw [List.find?_cons_of_neg _ (by simp [hfp])]
        exact ih (by omega) (by omega) h3 (fun j hj1 hj2 => h4 j hj1 (by omega))

/-! ## Reversion-search characterization -/

lemma find_reversion_index_eq_some {s : List Val} {p L : ℕ} {t : ℚ} {v : ℚ} {r : ℕ}
    (hv : v ≠ 0)
    (h : find_reversion_index s p (some v) t L = some r) :
    p ≤ r ∧ r < min (p + L) s.length ∧ revertsB (s.getD r none) v t = true ∧
      ∀ j, j < r → p ≤ j → revertsB (s.getD j none) v t = false := by
  rw [find_reversion_index, if_neg hv] at h
  obtain ⟨h1, h2, h3, h4⟩ := find?_range'_eq_some h
  exact ⟨h1, by omega, h3, h4⟩

lemma find_reversion_index_eq_some_of {s : List Val} {p L : ℕ} {t : ℚ} {v : ℚ} {r : ℕ}
    (hv : v ≠ 0) (h1 : p ≤ r) (h2 : r < min (p + L) s.length)
    (h3 : revertsB (s.getD r none) v t = true)
    (h4 : ∀ j, j < r → p ≤ j → revertsB (s.getD j none) v t = false) :
    find_reversion_index s p (some v) t L = some r := by
  rw [find_reversion_index, if_neg hv]
  exact find?_range'_eq_some_of h1 (by omega) h3 h4

lemma find_reversion_index_eq_none_of {s : List Val} {p L : ℕ} {t : ℚ} {v : ℚ}
    (hv : v ≠ 0)
    (h : ∀ r, r < min (p + L) s.length → p ≤ r → revertsB (s.getD r none) v t = false) :
    find_reversion_index s p (some v) t L = none := by
  rw [find_reversion_index, if_neg hv]
  rw [List.find?_eq_none]
  intro x hx
  rw [List.mem_range'_1] at hx
  simp only [Bool.not_eq_true]
  exact h x (by omega) hx.1

/-! ## Detector step lemmas -/

lemma mark_spike_region_length (mask : List Bool) (a b : ℕ) :
    (mark_spike_region mask a b).length = mask.length := by
  simp [mark_spike_region]

lemma mark_spike_region_getD (mask : List Bool) (a b i : ℕ) :
    (mark_spike_region mask a b).getD i false =
      if a ≤ i ∧ i < b ∧ i < mask.length then true else mask.getD i false := by
  have := getD_range_map
    (fun i => if a ≤ i ∧ i < b then true else mask.getD i false) mask.length i false
  rw [mark_spike_region]
  rw [this]
  rcases lt_or_le i mask.length with h | h
  · rw [if_pos h]
    by_cases hab : a ≤ i ∧ i < b
    · rw [if_pos hab, if_pos ⟨hab.1, hab.2, h⟩]
    · rw [if_neg hab, if_neg (by tauto)]
  · rw [if_neg (by omega), if_neg (by rintro ⟨-, -, h3⟩; omega),
      List.getD_eq_default _ _ h]

lemma detectStep_skip (s : List Val) (t : ℚ) (L : ℕ) (mask : List Bool) (pu : ℤ) (p : ℕ)
    (h : (p : ℤ) ≤ pu) : detectStep s t L (mask, pu) p = (mask, pu) := by
  simp [detectStep, h]

lemma detectStep_of_none (s : List Val) (t : ℚ) (L : ℕ) (mask : List Bool) (pu : ℤ) (p : ℕ)
    (h : ¬ (p : ℤ) ≤ pu)
    (h2 : find_reversion_index s p (if 0 < p then s.getD (p - 1) none else none) t L = none) :
    detectStep s t L (mask, pu) p = (mask, pu) := by
  rw [detectStep, if_neg h]
  simp only [h2]

lemma detectStep_of_some (s : List Val) (t : ℚ) (L : ℕ) (mask : List Bool) (pu : ℤ) (p r : ℕ)
    (h : ¬ (p : ℤ) ≤ pu)
    (h2 : find_reversion_index s p (if 0 < p then s.getD (p - 1) none else none) t L = some r) :
    detectStep s t L (mask, pu) p = (mark_spike_region mask p r, (r : ℤ)) := by
  rw [detectStep, if_neg h]
  simp only [h2]

lemma revertsB_self_false {s : List Val} {t : ℚ} {p : ℕ} {v : ℚ}
    (hp : 0 < p) (hlen : p < s.length)
    (hpre : s.getD (p - 1) none = some v) (hv : v ≠ 0)
    (hex : exceedsB ((calculate_pct_change s).getD p .nan) t = true) :
    revertsB (s.getD p none) v t = false := by
  have hcons : (none :: s).getD p none = s.getD (p - 1) none := by
    rcases p with _ | j
    · omega
    · simp
  rw [calculate_pct_change_getD s hlen, hcons, hpre] at hex
  rcases hcur : s.getD p none with _ | b
  · rw [hcur, pctCell_none_right] at hex
    cases hex
  · rw [hcur] at hex
    rw [pctCell, if_neg hv] at hex
    rw [exceedsB] at hex
    have hlt : t < |b - v| / |v| := of_decide_eq_true hex
    rw [revertsB]
    simpa using not_le.2 hlt

/-! ## Claim C1: step behaviour of the reversion spike detector -/

/-- C1: for a positive threshold and lookahead, the reversion spike
detector iterates the candidate positions (exactly those whose
percentage change exceeds the threshold) in increasing order via
`detectStep`; a candidate at or before the processed boundary leaves the
state unchanged; for a later candidate with present nonzero pre-spike
value `v`: if no position in `p .. min(p+L, length)-1` has deviation
from `v` within the threshold the state is unchanged (nothing marked, no
boundary advance), and if `r` is the smallest such position then exactly
`p .. r-1` are newly marked true and the boundary advances to `r`. -/
theorem claim_C1_step_characterization (s : List Val) (t : ℚ) (L : ℕ)
    (ht : 0 < t) (hL : 0 < L) :
    List.Pairwise (· < ·) (find_spike_start_indices (calculate_pct_change s) t) ∧
    (∀ p ∈ find_spike_start_indices (calculate_pct_change s) t,
      p < s.length ∧ exceedsB ((calculate_pct_change s).getD p .nan) t = true) ∧
    detect_reverting_spikes s t L =
      ((find_spike_start_indices (calculate_pct_change s) t).foldl (detectStep s t L)
        (List.replicate s.length false, -1)).1 ∧
    (∀ (mask : List Bool) (pu : ℤ) (p : ℕ), (p : ℤ) ≤ pu →
      detectStep s t L (mask, pu) p = (mask, pu)) ∧
    (∀ (mask : List Bool) (pu : ℤ) (p : ℕ) (v : ℚ), pu < (p : ℤ) → 0 < p →
      s.getD (p - 1) none = some v → v ≠ 0 →
      ((∀ r, r < min (p + L) s.length → p ≤ r → revertsB (s.getD r none) v t = false) →
        detectStep s t L (mask, pu) p = (mask, pu)) ∧
      (∀ r, r < min (p + L) s.length → p ≤ r → revertsB (s.getD r none) v t = true →
        (∀ j, j < r → p ≤ j → revertsB (s.getD j none) v t = false) →
        detectStep s t L (mask, pu) p = (mark_spike_region mask p r, (r : ℤ)) ∧
        ∀ i, i < mask.length →
          (mark_spike_region mask p r).getD i false =
            if p ≤ i ∧ i < r then true else mask.getD i false)) := by
  refine ⟨?_, ?_, rfl, ?_, ?_⟩
  · exact (List.pairwise_lt_range _).filter _
  · intro p hp
    rw [mem_find_spike_start_indices] at hp
    rw [calculate_pct_change_length] at hp
    exact hp
  · intro mask pu p h
    exact detectStep_skip s t L mask pu p h
  · intro mask pu p v hpu hp hpre hv
    have hnle : ¬ (p : ℤ) ≤ pu := by omega
    have hif : (if 0 < p then s.getD (p - 1) none else none) = some v := by
      rw [if_pos hp, hpre]
    constructor
    · intro hnone
      refine detectStep_of_none s t L mask pu p hnle ?_
      rw [hif]
      exact find_reversion_index_eq_none_of hv hnone
    · intro r hr1 hr2 hr3 hr4
      have hstep : detectStep s t L (mask, pu) p = (mark_spike_region mask p r, (r : ℤ)) := by
        refine detectStep_of_some s t L mask pu p r hnle ?_
        rw [hif]
        exact find_reversion_index_eq_some_of hv hr2 hr1 hr3 hr4
      refine ⟨hstep, fun i hi => ?_⟩
      rw [mark_spike_region_getD]
      by_cases hcase : p ≤ i ∧ i < r
      · rw [if_pos ⟨hcase.1, hcase.2, hi⟩, if_pos hcase]
      · rw [if_neg (by tauto), if_neg hcase]

/-- C1 witness: the characterization applied at the series
`[100, 250, 100]` with threshold 1 and lookahead 600: the candidate at
position 1 marks exactly position 1 and advances the boundary to 2. -/
theorem claim_C1_witness :
    detect_reverting_spikes [some 100, some 250, some 100] 1 600 =
      ((find_spike_start_indices (calculate_pct_change [some 100, some 250, some 100]) 1).foldl
        (detectStep [some 100, some 250, some 100] 1 600)
        (List.replicate 3 false, -1)).1 ∧
    detectStep [some 100, some 250, some 100] 1 600 ([false, false, false], -1) 1 =
      (mark_spike_region [false, false, false] 1 2, 2) := by
  have h := claim_C1_step_characterization [some 100, some 250, some 100] 1 600
    (by decide) (by decide)
  refine ⟨h.2.2.1, ?_⟩
  exact ((h.2.2.2.2 [false, false, false] (-1) 1 100 (by decide) (by decide) (by decide)
    (by decide)).2 2 (by decide) (by decide) (by decide) (by decide)).1

/-! ## Claim C6: non-overlap of marked regions -/

/-- Invariant carried through the candidate fold: the mask is exactly the
union of an ordered list of disjoint regions, each starting at a
position whose percentage change exceeds the threshold. -/
def RegionsSpec (s : List Val) (t : ℚ) (regs : List (ℕ × ℕ)) (mask : List Bool) : Prop :=
  List.Pairwise (fun a b => a.2 ≤ b.1) regs ∧
  (∀ pr ∈ regs, pr.1 < pr.2 ∧ pr.2 ≤ s.length ∧
    exceedsB ((calculate_pct_change s).getD pr.1 .nan) t = true) ∧
  (∀ i : ℕ, mask.getD i false = true ↔ ∃ pr ∈ regs, pr.1 ≤ i ∧ i < pr.2)

lemma detect_fold_regions (s : List Val) (t : ℚ) (L : ℕ) :
    ∀ (starts : List ℕ) (mask : List Bool) (pu : ℤ) (regs : List (ℕ × ℕ)),
      (∀ p ∈ starts, p < s.length ∧
        exceedsB ((calculate_pct_change s).getD p .nan) t = true) →
      mask.length = s.length →
      RegionsSpec s t regs mask →
      (∀ pr ∈ regs, (pr.2 : ℤ) ≤ pu) →
      ∃ regs2,
        RegionsSpec s t regs2 (starts.foldl (detectStep s t L) (mask, pu)).1 := by
  intro starts
  induction starts with
  | nil => exact fun mask pu regs _ _ hspec _ => ⟨regs, hspec⟩
  | cons p rest ih =>
      intro mask pu regs hst hlen hspec hbd
      have hstp := hst p (List.mem_cons_self p rest)
      have hstrest : ∀ q ∈ rest, q < s.length ∧
          exceedsB ((calculate_pct_change s).getD q .nan) t = true :=
        fun q hq => hst q (List.mem_cons_of_mem _ hq)
      rw [List.foldl_cons]
      by_cases hskip : (p : ℤ) ≤ pu
      · rw [detectStep_skip s t L mask pu p hskip]
        exact ih mask pu regs hstrest hlen hspec hbd
      · rcases hfr : find_reversion_index s p
            (if 0 < p then s.getD (p - 1) none else none) t L with _ | r
        · rw [detectStep_of_none s t L mask pu p hskip hfr]
          exact ih mask pu regs hstrest hlen hspec hbd
        · rw [detectStep_of_some s t L mask pu p r hskip hfr]
          -- the candidate has a present, nonzero pre-spike value
          have hp : 0 < p := by
            by_contra hp0
            have hp0 : p = 0 := by omega
            subst hp0
            rw [if_neg (by omega)] at hfr
            cases hfr
          rw [if_pos hp] at hfr
          rcases hpre : s.getD (p - 1) none with _ | v
          · rw [hpre] at hfr; cases hfr
          rw [hpre] at hfr
          have hv : v ≠ 0 := by
            intro hv0
            subst hv0
            rw [find_reversion_index] at hfr
            rw [if_pos rfl] at hfr
            cases hfr
          obtain ⟨hr1, hr2, hr3, hr4⟩ := find_reversion_index_eq_some hv hfr
          -- the reversion position is strictly after the spike start
          have hpr : p < r := by
            rcases eq_or_lt_of_le hr1 with h | h
            · exfalso
              have hself := revertsB_self_false hp hstp.1 hpre hv hstp.2
              rw [← h] at hr3
              rw [hr3] at hself
              cases hself
            · exact h
          have hrn : r ≤ s.length := by omega
          -- extend the region list with the new region [p, r)
          refine ih (mark_spike_region mask p r) (r : ℤ) (regs ++ [(p, r)]) hstrest
            (by rw [mark_spike_region_length]; exact hlen) ?_ ?_
          · obtain ⟨hpair, hprop, hchar⟩ := hspec
            refine ⟨?_, ?_, ?_⟩
            · rw [List.pairwise_append]
              refine ⟨hpair, by simp, ?_⟩
              intro a ha b hb
              have hbd2 := hbd a ha
              rw [List.mem_singleton] at hb
              subst hb
              simp only
              omega
            · intro pr hpr2
              rw [List.mem_append] at hpr2
              rcases hpr2 with h | h
              · exact hprop pr h
              · rw [List.mem_singleton] at h
                subst h
                exact ⟨hpr, hrn, hstp.2⟩
            · intro i
              rw [mark_spike_region_getD]
              by_cases hcase : p ≤ i ∧ i < r ∧ i < mask.length
              · rw [if_pos hcase]
                constructor
                · intro _
                  exact ⟨(p, r), by simp, hcase.1, hcase.2.1⟩
                · intro _; rfl
              · rw [if_neg hcase]
                rw [hchar i]
                constructor
                · rintro ⟨pr, hmem, hcov⟩
                  exact ⟨pr, by rw [List.mem_append]; exact Or.inl hmem, hcov⟩
                · rintro ⟨pr, hmem, hcov⟩
                  rw [List.mem_append] at hmem
                  rcases hmem with h | h
                  · exact ⟨pr, h, hcov⟩
                  · rw [List.mem_singleton] at h
                    subst h
                    exfalso
                    have : i < mask.length := by
                      rw [hlen]; omega
                    exact hcase ⟨hcov.1, hcov.2, this⟩
          · intro pr hpr2
            rw [List.mem_append] at hpr2
            rcases hpr2 with h | h
            · have := hbd pr h
              omega
            · rw [List.mem_singleton] at h
              subst h
              simp

/-- C6: within one call to the reversion detector, the marked positions
decompose into an ordered list of pairwise non-overlapping regions
`[start, reversion)`, and every region's start position has a percentage
change exceeding the pass threshold on that pass's input series. -/
theorem claim_C6_nonoverlap (s : List Val) (t : ℚ) (L : ℕ) :
    ∃ regs : List (ℕ × ℕ),
      List.Pairwise (fun a b => a.2 ≤ b.1) regs ∧
      (∀ pr ∈ regs, pr.1 < pr.2 ∧
        exceedsB ((calculate_pct_change s).getD pr.1 .nan) t = true) ∧
      (∀ i : ℕ, (detect_reverting_spikes s t L).getD i false = true ↔
        ∃ pr ∈ regs, pr.1 ≤ i ∧ i < pr.2) := by
  have hinit : RegionsSpec s t [] (List.replicate s.length false) := by
    refine ⟨List.Pairwise.nil, by simp, fun i => ?_⟩
    constructor
    · intro h
      exfalso
      rcases lt_or_le i s.length with hi | hi
      · rw [List.getD_eq_getElem?_getD, List.getElem?_replicate, if_pos hi] at h
        cases h
      · rw [List.getD_eq_default _ _ (by simpa using hi)] at h
        cases h
    · rintro ⟨pr, hmem, -⟩
      cases hmem
  have hstarts : ∀ p ∈ find_spike_start_indices (calculate_pct_change s) t,
      p < s.length ∧ exceedsB ((calculate_pct_change s).getD p .nan) t = true := by
    intro p hp
    rw [mem_find_spike_start_indices, calculate_pct_change_length] at hp
    exact hp
  obtain ⟨regs, hspec⟩ := detect_fold_regions s t L
    (find_spike_start_indices (calculate_pct_change s) t)
    (List.replicate s.length false) (-1) [] hstarts (by simp) hinit (by simp)
  exact ⟨regs, hspec.1, fun pr hpr => ⟨(hspec.2.1 pr hpr).1, (hspec.2.1 pr hpr).2.2⟩,
    hspec.2.2⟩

/-! ## Claim C9: degenerate inputs -/

lemma getD_none_of_all_none {s : List Val} (h : ∀ x ∈ s, x = none) (j : ℕ) :
    s.getD j none = none := by
  rcases lt_or_le j s.length with hj | hj
  · rw [getD_getD_of_lt _ none hj]
    exact h _ (List.getElem_mem hj)
  · exact List.getD_eq_default _ _ hj

lemma starts_degenerate (s : List Val) (t : ℚ)
    (h : s.length ≤ 1 ∨ ∀ x ∈ s, x = none) :
    find_spike_start_indices (calculate_pct_change s) t = [] := by
  rw [find_spike_start_indices, List.filter_eq_nil_iff]
  intro a ha
  rw [List.mem_range, calculate_pct_change_length] at ha
  simp only [Bool.not_eq_true]
  rcases h with h | h
  · have ha0 : a = 0 := by omega
    subst ha0
    rw [calculate_pct_change_getD s ha, List.getD_cons_zero, pctCell_none_left]
    rfl
  · rw [calculate_pct_change_getD s ha, getD_none_of_all_none h a, pctCell_none_right]
    rfl

lemma detect_of_no_starts (s : List Val) (t : ℚ) (L : ℕ)
    (h : find_spike_start_indices (calculate_pct_change s) t = []) :
    detect_reverting_spikes s t L = List.replicate s.length false := by
  show ((find_spike_start_indices (calculate_pct_change s) t).foldl (detectStep s t L)
    (List.replicate s.length false, -1)).1 = List.replicate s.length false
  rw [h, List.foldl_nil]

lemma rollingMedian_none_of_degenerate (s : List Val) (i : ℕ)
    (h : s.length ≤ 1 ∨ ∀ x ∈ s, x = none) : rollingMedian s i = none := by
  rw [rollingMedian, if_pos]
  rcases h with h | h
  · have h1 : (rollingWindow s i).length ≤
        min (i + ROLLING_WINDOW_DAYS / 2) (s.length - 1) + 1 -
          (i - (ROLLING_WINDOW_DAYS - 1) / 2) := by
      simp only [rollingWindow]
      refine le_trans (List.length_filterMap_le _ _) ?_
      rw [List.length_range']
    have h2 : min (i + ROLLING_WINDOW_DAYS / 2) (s.length - 1) ≤ s.length - 1 :=
      min_le_right _ _
    omega
  · have hw : rollingWindow s i = [] := by
      rw [rollingWindow, List.filterMap_eq_nil_iff]
      intro a ha
      exact getD_none_of_all_none h a
    rw [hw]
    decide

lemma rollingFlag_none_right (c : Val) : rollingFlag c none = false := by
  cases c <;> rfl

lemma rolling_degenerate (s : List Val)
    (h : s.length ≤ 1 ∨ ∀ x ∈ s, x = none) :
    detect_rolling_median_outliers s = List.replicate s.length false := by
  rw [List.eq_replicate_iff]
  refine ⟨by simp [detect_rolling_median_outliers], ?_⟩
  intro b hb
  rw [detect_rolling_median_outliers, List.mem_map] at hb
  obtain ⟨i, hi, hfi⟩ := hb
  rw [← hfi, rollingMedian_none_of_degenerate s i h, rollingFlag_none_right]

lemma getD_replicate {α : Type} (n i : ℕ) (a : α) : (List.replicate n a).getD i a = a := by
  rcases lt_or_le i n with h | h
  · rw [List.getD_eq_getElem?_getD, List.getElem?_replicate, if_pos h]
    rfl
  · exact List.getD_eq_default _ _ (by simpa using h)

lemma ffillAux_replicate_none :
    ∀ n : ℕ, ffillAux none (List.replicate n none) = List.replicate n none := by
  intro n
  induction n with
  | zero => rfl
  | succ k ih =>
      rw [List.replicate_succ, ffillAux, ih]

lemma app_ffill_replicate_none (n : ℕ) :
    apply_forward_fill_correction (List.replicate n none) (List.replicate n false) =
      List.replicate n none := by
  rw [apply_forward_fill_correction]
  have hnulled : nulledSeries (List.replicate n none) (List.replicate n false) =
      List.replicate n none := by
    rw [List.eq_replicate_iff]
    refine ⟨by simp [nulledSeries], ?_⟩
    intro b hb
    rw [nulledSeries, List.mem_map] at hb
    obtain ⟨i, hi, hfi⟩ := hb
    rw [← hfi, getD_replicate, getD_replicate]
    simp
  rw [hnulled]
  exact ffillAux_replicate_none n

lemma ffill_degenerate (s : List Val)
    (h : s.length ≤ 1 ∨ ∀ x ∈ s, x = none) :
    apply_forward_fill_correction s (List.replicate s.length false) = s := by
  rcases h with h | h
  · rcases s with _ | ⟨x, _ | ⟨y, rest⟩⟩
    · rfl
    · cases x <;> rfl
    · exfalso
      simp at h
  · have hs : s = List.replicate s.length none := List.eq_replicate_iff.2 ⟨rfl, h⟩
    calc apply_forward_fill_correction s (List.replicate s.length false)
        = apply_forward_fill_correction (List.replicate s.length none)
            (List.replicate s.length false) := by rw [← hs]
      _ = List.replicate s.length none := app_ffill_replicate_none s.length
      _ = s := hs.symm

/-- C9: on a degenerate series — length at most one, or entirely
missing — both detectors produce an all-false mask, the corrector with
that mask returns the series unchanged, and the whole pipeline returns
its input unchanged.  (The embedded pipeline is a total function, so no
exception is modelled for well-formed numeric input.) -/
theorem claim_C9_degenerate (s : List Val) (t : ℚ) (L : ℕ)
    (h : s.length ≤ 1 ∨ ∀ x ∈ s, x = none) :
    detect_reverting_spikes s t L = List.replicate s.length false ∧
    detect_rolling_median_outliers s = List.replicate s.length false ∧
    apply_forward_fill_correction s (List.replicate s.length false) = s ∧
    correct_shares_outstanding_outliers s = s := by
  have hdetect : ∀ (u : ℚ) (K : ℕ),
      detect_reverting_spikes s u K = List.replicate s.length false :=
    fun u K => detect_of_no_starts s u K (starts_degenerate s u h)
  have hroll := rolling_degenerate s h
  have hffill := ffill_degenerate s h
  have hpass : ∀ u : ℚ, reversionPass u s = s := by
    intro u
    rw [reversionPass, hdetect u, hffill]
  refine ⟨hdetect t L, hroll, hffill, ?_⟩
  show apply_forward_fill_correction
      (reversionPass 0.35 (reversionPass 0.50 (reversionPass 1.00 s)))
      (detect_rolling_median_outliers
        (reversionPass 0.35 (reversionPass 0.50 (reversionPass 1.00 s)))) = s
  rw [hpass, hpass, hpass, hroll, hffill]

/-- C9 witness: the degenerate-input theorem applied at the length-one
series `[some 5]`. -/
theorem claim_C9_witness :
    detect_reverting_spikes [some 5] 1 600 = List.replicate 1 false ∧
    detect_rolling_median_outliers [some 5] = List.replicate 1 false ∧
    apply_forward_fill_correction [some 5] (List.replicate 1 false) = [some 5] ∧
    correct_shares_outstanding_outliers [some 5] = [some 5] :=
  claim_C9_degenerate [some 5] 1 600 (Or.inl (by decide))

/-! ## Claim C3: behaviour on duplicate / misaligned label indices

The positional model above assumes a unique, strictly increasing index,
under which pandas labels and list positions agree.  To settle claim C3
the label index is modelled explicitly: `pandas.Index.get_loc` returns
an integer position only when the label occurs exactly once; on a
duplicated label it returns a slice or boolean array, on which the
integer comparison `spike_pos <= processed_until` and the integer
slicing of `detect_reverting_spikes` then fail with a generic
`TypeError`.  That failure path is modelled as `none`.  The source
contains no entry validation and no `InvalidSeriesError` type. -/

/-- `series.index.get_loc(label)` of pandas: the position of a uniquely
occurring label; `none` models the non-integer result (slice or mask)
returned for a duplicated label, which makes the caller fail. -/
def get_loc (labels : List ℤ) (lab : ℤ) : Option ℕ :=
  if labels.count lab = 1 then
    (List.range labels.length).find? (fun i => decide (labels.getD i 0 = lab))
  else none

/-- One iteration of the candidate loop of `detect_reverting_spikes`
over an explicit label index; `none` models the `TypeError` raised on a
non-integer `get_loc` result. -/
def detectStepLabeled (labels : List ℤ) (series : List Val) (threshold : ℚ)
    (max_lookahead : ℕ) (st : List Bool × ℤ) (lab : ℤ) : Option (List Bool × ℤ) :=
  match get_loc labels lab with
  | none => none
  | some spike_pos =>
      if (spike_pos : ℤ) ≤ st.2 then some st
      else
        let pre : Val := if 0 < spike_pos then series.getD (spike_pos - 1) none else none
        match find_reversion_index series spike_pos pre threshold max_lookahead with
        | none => some st
        | some r =>
            match get_loc labels (labels.getD r 0) with
            | none => none
            | some rpos => some (mark_spike_region st.1 spike_pos rpos, (rpos : ℤ))

/-- `detect_reverting_spikes` over an explicit label index: spike-start
labels are looked up with `get_loc`; a duplicated spike-start or
reversion label makes the call fail (`none`). -/
def detect_reverting_spikes_labeled (labels : List ℤ) (series : List Val)
    (threshold : ℚ) (max_lookahead : ℕ) : Option (List Bool) :=
  let pct_change := calculate_pct_change series
  let start_labels := (find_spike_start_indices pct_change threshold).map
    (fun i => labels.getD i 0)
  (start_labels.foldlM (detectStepLabeled labels series threshold max_lookahead)
    (List.replicate series.length false, -1)).map (fun st => st.1)

/-- `correct_shares_outstanding_outliers` over an explicit label index:
the three reversion passes consult the index; the rolling pass and the
forward fill are positional.  `none` models an uncaught exception; the
function performs no validation of the labels on entry. -/
def correct_shares_outstanding_outliers_labeled (labels : List ℤ) (series : List Val) :
    Option (List Val) :=
  match detect_reverting_spikes_labeled labels series 1.00 MAX_LOOKAHEAD_DAYS with
  | none => none
  | some m1 =>
      let c1 := apply_forward_fill_correction series m1
      match detect_reverting_spikes_labeled labels c1 0.50 MAX_LOOKAHEAD_DAYS with
      | none => none
      | some m2 =>
          let c2 := apply_forward_fill_correction c1 m2
          match detect_reverting_spikes_labeled labels c2 0.35 MAX_LOOKAHEAD_DAYS with
          | none => none
          | some m3 =>
              let c3 := apply_forward_fill_correction c2 m3
              some (apply_forward_fill_correction c3 (detect_rolling_median_outliers c3))

lemma detect_labeled_of_no_starts (labels : List ℤ) (s : List Val) (t : ℚ) (L : ℕ)
    (h : find_spike_start_indices (calculate_pct_change s) t = []) :
    detect_reverting_spikes_labeled labels s t L =
      some (List.replicate s.length false) := by
  simp only [detect_reverting_spikes_labeled, h]
  rfl

/-- C3 counterexample: the index `[0, 0, 1]` is duplicated (hence not
unique, not strictly increasing), yet the pipeline does not signal any
error: it returns a result.  There is no entry validation and no
`InvalidSeriesError` anywhere in the source. -/
theorem claim_C3_counterexample :
    ¬ ([0, 0, 1] : List ℤ).Nodup ∧
    correct_shares_outstanding_outliers_labeled [0, 0, 1]
        [some 100, some 100, some 100] =
      some [some 100, some 100, some 100] := by
  decide

/-- C3 (amended): the pipeline performs no index validation on entry and
never signals an `InvalidSeriesError` (no such error exists in the
source); inputs with duplicate or non-increasing indices are processed
like any other, and whenever no spike-start candidate arises in the
three reversion passes the pipeline completes and returns exactly the
positional pipeline's output, whatever the labels are. -/
theorem claim_C3_amended (labels : List ℤ) (s : List Val)
    (h1 : find_spike_start_indices (calculate_pct_change s) 1.00 = [])
    (h2 : find_spike_start_indices (calculate_pct_change (reversionPass 1.00 s)) 0.50 = [])
    (h3 : find_spike_start_indices
        (calculate_pct_change (reversionPass 0.50 (reversionPass 1.00 s))) 0.35 = []) :
    correct_shares_outstanding_outliers_labeled labels s =
      some (correct_shares_outstanding_outliers s) := by
  have e1 : apply_forward_fill_correction s (List.replicate s.length false) =
      reversionPass 1.00 s := by
    rw [reversionPass, detect_of_no_starts s 1.00 MAX_LOOKAHEAD_DAYS h1]
  have e2 : apply_forward_fill_correction (reversionPass 1.00 s)
      (List.replicate (reversionPass 1.00 s).length false) =
      reversionPass 0.50 (reversionPass 1.00 s) := by
    conv_rhs => rw [reversionPass]
    rw [detect_of_no_starts _ 0.50 MAX_LOOKAHEAD_DAYS h2]
  have e3 : apply_forward_fill_correction (reversionPass 0.50 (reversionPass 1.00 s))
      (List.replicate (reversionPass 0.50 (reversionPass 1.00 s)).length false) =
      reversionPass 0.35 (reversionPass 0.50 (reversionPass 1.00 s)) := by
    conv_rhs => rw [reversionPass]
    rw [detect_of_no_starts _ 0.35 MAX_LOOKAHEAD_DAYS h3]
  have d1 := detect_labeled_of_no_starts labels s 1.00 MAX_LOOKAHEAD_DAYS h1
  have d2 := detect_labeled_of_no_starts labels (reversionPass 1.00 s) 0.50
    MAX_LOOKAHEAD_DAYS h2
  have d3 := detect_labeled_of_no_starts labels (reversionPass 0.50 (reversionPass 1.00 s))
    0.35 MAX_LOOKAHEAD_DAYS h3
  rw [correct_shares_outstanding_outliers_labeled, d1]
  simp only [e1]
  rw [d2]
  simp only [e2]
  rw [d3]
  simp only [e3]
  rfl

/-- C3 witness: the amended theorem applied at the duplicated index
`[0, 0, 1]` with a constant series. -/
theorem claim_C3_witness :
    correct_shares_outstanding_outliers_labeled [0, 0, 1]
        [some 200, some 200, some 200] =
      some (correct_shares_outstanding_outliers [some 200, some 200, some 200]) :=
  claim_C3_amended [0, 0, 1] [some 200, some 200, some 200]
    (by decide) (by decide) (by decide)

end SharesOutlier
